import Mathlib

/-!
# Verification of the RAG pipeline core

A shallow embedding of the repository under verification: the semantic
chunker (`app/services/chunker.py`), the vector store
(`app/core/vectorstore.py`), the answer generator (`app/core/llm.py`) and
the retrieval engine (`app/services/rag_pipeline.py`).

Text is modelled as `List Char`, numeric vector entries as rationals.
Conventions used throughout:
* Python string helpers (`replace`, `split`, `strip`, `find`, …) are
  re-implemented as executable Lean functions with the same semantics.
* The Python main loop of `chunk_text` iterates over a list that it also
  appends to; this is modelled as a work queue with an explicit fuel
  parameter, since the Python loop genuinely diverges on some inputs
  (a chunk-sized-exceeding part that re-splits to itself is re-queued
  forever).  Exhausted fuel is reported as `ChunkResult.timeout`.
* The faiss library call `IndexFlatL2.search` is a third-party dependency
  with documented behaviour (`k` nearest neighbours by squared Euclidean
  distance, ascending, padded with index `-1` when fewer than `k` vectors
  are stored); it is modelled by `faissSearch` below.
-/

namespace RagProj

/-- Does `s` start with the pattern `pat`?  (Python `str.startswith`.) -/
def startsWith : List Char → List Char → Bool
  | _, [] => true
  | [], _ :: _ => false
  | a :: as, b :: bs => a == b && startsWith as bs

/-- Worker for `replaceAll`, structurally recursive on a fuel that the
caller sets to the string length (each step consumes at least one
character, so the fuel never runs out before the string does). -/
def replaceAllGo (pat rep : List Char) : Nat → List Char → List Char
  | 0, s => s
  | fuel + 1, s =>
    match s with
    | [] => []
    | c :: rest =>
      if !pat.isEmpty && startsWith (c :: rest) pat then
        rep ++ replaceAllGo pat rep fuel (rest.drop (pat.length - 1))
      else
        c :: replaceAllGo pat rep fuel rest

/-- Python `s.replace(pat, rep)`: replace every non-overlapping occurrence of
`pat` in `s` by `rep`, scanning left to right. -/
def replaceAll (pat rep s : List Char) : List Char :=
  replaceAllGo pat rep s.length s

/-- Worker for `splitOnSep`, fuelled like `replaceAllGo`.  `acc` holds the
current piece reversed. -/
def splitOnSepGo (sep : List Char) : Nat → List Char → List Char → List (List Char)
  | 0, acc, _ => [acc.reverse]
  | fuel + 1, acc, s =>
    match s with
    | [] => [acc.reverse]
    | c :: rest =>
      if !sep.isEmpty && startsWith (c :: rest) sep then
        acc.reverse :: splitOnSepGo sep fuel [] (rest.drop (sep.length - 1))
      else
        splitOnSepGo sep fuel (c :: acc) rest

/-- Python `s.split(sep)` for a non-empty separator: split at every
non-overlapping occurrence, keeping empty pieces. -/
def splitOnSep (sep acc s : List Char) : List (List Char) :=
  splitOnSepGo sep s.length acc s

/-- Python `str.strip()`: remove leading and trailing whitespace. -/
def stripChars (s : List Char) : List Char :=
  ((s.dropWhile Char.isWhitespace).reverse.dropWhile Char.isWhitespace).reverse

/-- Worker for `findWithin`, fuelled with `stop + 1 - i` (when the fuel is
out, the position is already past `stop` and the search has failed). -/
def findWithinGo (s sub : List Char) : Nat → Nat → Nat → Int
  | 0, _, _ => -1
  | fuel + 1, i, stop =>
    if i + sub.length > stop then -1
    else if startsWith (s.drop i) sub then (i : Int)
    else findWithinGo s sub fuel (i + 1) stop

/-- Python `s.find(sub, i, stop)`: smallest position `p ≥ i` with
`p + sub.length ≤ stop` at which `sub` occurs in `s`, or `-1`. -/
def findWithin (s sub : List Char) (i stop : Nat) : Int :=
  findWithinGo s sub (stop + 1 - i) i stop

/-- Python `str.split()` helper: accumulate the current word reversed. -/
def splitWsAux : List Char → List Char → List (List Char)
  | acc, [] => if acc.isEmpty then [] else [acc.reverse]
  | acc, c :: rest =>
    if c.isWhitespace then
      (if acc.isEmpty then [] else [acc.reverse]) ++ splitWsAux [] rest
    else
      splitWsAux (c :: acc) rest

/-- Python `str.split()`: split on whitespace runs, dropping empty pieces. -/
def splitWhitespace (s : List Char) : List (List Char) :=
  splitWsAux [] s

/-- Python `" ".join(words)`. -/
def joinWithSpace : List (List Char) → List Char
  | [] => []
  | [w] => w
  | w :: ws => w ++ ' ' :: joinWithSpace ws

/-- Python `sub in s` (substring containment). -/
def containsSub : List Char → List Char → Bool
  | [], sub => sub.isEmpty
  | c :: rest, sub => startsWith (c :: rest) sub || containsSub rest sub

/-- Python `s.endswith(".")`. -/
def endsWithDot (s : List Char) : Bool :=
  match s.getLast? with
  | some c => c == '.'
  | none => false

/-- A sentence-level segment with offsets into the normalized document,
mirroring the `(text, start, end)` tuples of `chunker._segment_text`. -/
structure Seg where
  text : List Char
  start : Nat
  stop : Nat
deriving DecidableEq, Repr

/-- `chunker._normalize_newlines`: CRLF and CR become LF. -/
def normalizeNewlines (text : List Char) : List Char :=
  replaceAll ['\r'] ['\n'] (replaceAll ['\r', '\n'] ['\n'] text)

/-- The cursor loop of `chunker._split_paragraphs`: for each block of the
blank-line split, strip it, locate it in the normalized text from the
cursor, and record its offsets. -/
def splitParagraphsLoop (normalized : List Char) : List (List Char) → Nat → List Seg
  | [], _ => []
  | block :: rest, cursor =>
    let cleaned := stripChars block
    if cleaned.isEmpty then
      splitParagraphsLoop normalized rest (cursor + block.length + 2)
    else
      let f := findWithin normalized cleaned cursor normalized.length
      let start := if f == -1 then cursor else f.toNat
      let stop := start + cleaned.length
      ⟨cleaned, start, stop⟩ :: splitParagraphsLoop normalized rest stop

/-- `chunker._split_paragraphs`: paragraphs (blank-line separated blocks)
with their character offsets. -/
def splitParagraphs (text : List Char) : List Seg :=
  let normalized := normalizeNewlines text
  splitParagraphsLoop normalized (splitOnSep ['\n', '\n'] [] normalized) 0

/-- Is `c` one of the sentence-closing characters of the regex
`(?<=[.!?])\s+(?=[A-Z0-9])` in `chunker.py`? -/
def isCloser (c : Char) : Bool :=
  c == '.' || c == '!' || c == '?'

/-- Is `c` in the `[A-Z0-9]` class of the sentence-split regex? -/
def isUpperDigit (c : Char) : Bool :=
  ('A' ≤ c && c ≤ 'Z') || ('0' ≤ c && c ≤ '9')

/-- Scanner realizing `re.split` on `(?<=[.!?])\s+(?=[A-Z0-9])`: a match is
a maximal whitespace run whose preceding character is a closer and whose
following character is `[A-Z0-9]` (shorter runs always fail the
look-ahead, so greedy matching with backtracking reduces to this).
`prev` is the previously consumed character, `acc` the current piece
reversed. -/
def sentenceScanGo : Nat → Char → List Char → List Char → List (List Char)
  | 0, _, acc, _ => [acc.reverse]
  | fuel + 1, prev, acc, s =>
    match s with
    | [] => [acc.reverse]
    | c :: rest =>
      if isCloser prev && c.isWhitespace then
        match (c :: rest).dropWhile Char.isWhitespace with
        | [] => [acc.reverse ++ (c :: rest).takeWhile Char.isWhitespace]
        | a :: arest =>
          if isUpperDigit a then
            acc.reverse :: sentenceScanGo fuel ' ' [] (a :: arest)
          else
            sentenceScanGo fuel ' ' (((c :: rest).takeWhile Char.isWhitespace).reverse ++ acc)
              (a :: arest)
      else
        sentenceScanGo fuel c (c :: acc) rest

/-- See the doc comment on `sentenceScan`: fuelled worker, fuel set to the
paragraph length (every step consumes at least one character). -/
def sentenceScan (prev : Char) (acc : List Char) (s : List Char) : List (List Char) :=
  sentenceScanGo s.length prev acc s

/-- `chunker._split_sentences`: regex split; if no boundary is found the
whole paragraph is a single sentence, otherwise strip each piece and drop
empties. -/
def splitSentences (paragraph : List Char) : List (List Char) :=
  let sentences := sentenceScan ' ' [] paragraph
  if sentences.length == 1 then [paragraph]
  else (sentences.map stripChars).filter (fun s => !s.isEmpty)

/-- The inner sentence loop of `chunker._segment_text`, tracking the
`running` cursor inside one paragraph. -/
def segmentSentencesLoop (normalized : List Char) (paraStop : Nat) :
    Nat → List (List Char) → List Seg
  | _, [] => []
  | running, sentence :: rest =>
    if sentence.isEmpty then
      segmentSentencesLoop normalized paraStop running rest
    else
      let f := findWithin normalized sentence running paraStop
      let sentStart := if f == -1 then running else f.toNat
      let sentStop := sentStart + sentence.length
      ⟨sentence, sentStart, sentStop⟩ :: segmentSentencesLoop normalized paraStop sentStop rest

/-- `chunker._segment_text`: sentence-level segments with offsets. -/
def segmentText (text : List Char) : List Seg :=
  if text.isEmpty then []
  else
    let normalized := normalizeNewlines text
    ((splitParagraphs normalized).map
      (fun p => segmentSentencesLoop normalized p.stop p.start (splitSentences p.text))).flatten

/-- Mirror of `chunker.ChunkMetadata` (the optional `source` field is set
only by `chunk_documents`, which the claims do not touch). -/
structure ChunkMeta where
  text : List Char
  start : Nat
  stop : Nat
  tokens : Nat
deriving DecidableEq, Repr

/-- The word loop of `chunker._split_long_segment`. -/
def splitLongSegmentLoop (measure : List Char → Nat) (chunkSize : Nat) :
    List (List Char) → List (List Char) → Nat → Nat → List Seg
  | [], currentWords, currentStart, _ =>
    if currentWords.isEmpty then []
    else
      let subText := joinWithSpace currentWords
      [⟨subText, currentStart, currentStart + subText.length⟩]
  | word :: rest, currentWords, currentStart, tokens =>
    let tentative := tokens + measure word
    if tentative > chunkSize && !currentWords.isEmpty then
      let subText := joinWithSpace currentWords
      let subStop := currentStart + subText.length
      ⟨subText, currentStart, subStop⟩ ::
        splitLongSegmentLoop measure chunkSize rest [word] (subStop + 1) (measure word)
    else
      splitLongSegmentLoop measure chunkSize rest (currentWords ++ [word]) currentStart tentative

/-- `chunker._split_long_segment`: break an oversized segment into
whitespace-bounded windows. -/
def splitLongSegment (segment : List Char) (segmentStart : Nat)
    (measure : List Char → Nat) (chunkSize : Nat) : List Seg :=
  match splitWhitespace segment with
  | [] => []
  | w :: ws => splitLongSegmentLoop measure chunkSize (w :: ws) [] segmentStart 0

/-- `chunker._finalize_chunk`: chunk text is the stripped original slice
`[start:stop]`, falling back to rejoining the segment texts. -/
def finalizeChunk (segments : List ChunkMeta) (originalText : List Char)
    (totalTokens : Nat) : ChunkMeta :=
  let start := (segments.headD ⟨[], 0, 0, 0⟩).start
  let stop := (segments.getLastD ⟨[], 0, 0, 0⟩).stop
  let sliceText := stripChars ((originalText.drop start).take (stop - start))
  let chunkTextValue := if sliceText.isEmpty then joinWithSpace (segments.map (·.text)) else sliceText
  ⟨chunkTextValue, start, stop, totalTokens⟩

/-- The reversed-iteration loop of `chunker._prepare_overlap`: take elements
of the reversed segment list until the accumulated token count reaches
`overlap`. -/
def overlapTake (overlap : Nat) : Nat → List ChunkMeta → List ChunkMeta
  | _, [] => []
  | acc, seg :: rest =>
    if overlap ≤ acc + seg.tokens then [seg]
    else seg :: overlapTake overlap (acc + seg.tokens) rest

/-- Token sum of a segment list. -/
def sumTokens (l : List ChunkMeta) : Nat :=
  (l.map (·.tokens)).sum

/-- `chunker._prepare_overlap`: retain the shortest suffix of the closed
chunk whose token total reaches `overlap` (all of it when the total stays
below), in original order, together with its recomputed token total. -/
def prepareOverlap (segments : List ChunkMeta) (overlap : Nat) : List ChunkMeta × Nat :=
  if overlap == 0 || segments.isEmpty then ([], 0)
  else
    let retained := (overlapTake overlap 0 segments.reverse).reverse
    (retained, sumTokens retained)

/-- Result of `chunk_text`.  `invalidArg` is the `ValueError` path for bad
parameters; `timeout` reports exhausted fuel for the work-queue loop
(inputs on which the Python loop never terminates). -/
inductive ChunkResult
  | invalidArg
  | timeout
  | ok (chunks : List ChunkMeta)
deriving DecidableEq, Repr

/-- The main loop of `chunk_text`.  The Python `for` iterates over a list
that the oversized-segment branch appends to, so appended parts are
visited after all currently pending segments: a work queue.  One unit of
fuel is spent per visited segment. -/
def chunkLoop (measure : List Char → Nat) (chunkSize overlap minTok : Nat)
    (originalText : List Char) :
    Nat → List Seg → List ChunkMeta → Nat → List ChunkMeta → Option (List ChunkMeta)
  | _, [], current, currentTokens, chunks =>
    if current.isEmpty then some chunks
    else
      let chunk := finalizeChunk current originalText currentTokens
      some (if minTok ≤ chunk.tokens then chunks ++ [chunk] else chunks)
  | 0, _ :: _, _, _, _ => none
  | fuel + 1, seg :: pending, current, currentTokens, chunks =>
    let segTokens := measure seg.text
    if segTokens == 0 then
      chunkLoop measure chunkSize overlap minTok originalText fuel pending current currentTokens chunks
    else if chunkSize < segTokens then
      let parts := (splitLongSegment seg.text seg.start measure chunkSize).filter
        (fun p => measure p.text != 0)
      chunkLoop measure chunkSize overlap minTok originalText fuel (pending ++ parts)
        current currentTokens chunks
    else if currentTokens + segTokens > chunkSize && !current.isEmpty then
      let chunk := finalizeChunk current originalText currentTokens
      let chunks2 := if minTok ≤ chunk.tokens then chunks ++ [chunk] else chunks
      let seeded := prepareOverlap current overlap
      chunkLoop measure chunkSize overlap minTok originalText fuel pending
        (seeded.1 ++ [⟨seg.text, seg.start, seg.stop, segTokens⟩]) (seeded.2 + segTokens) chunks2
    else
      chunkLoop measure chunkSize overlap minTok originalText fuel pending
        (current ++ [⟨seg.text, seg.start, seg.stop, segTokens⟩]) (currentTokens + segTokens) chunks

/-- The default `measure` of `chunk_text` (character count). -/
def defaultMeasure (s : List Char) : Nat :=
  s.length

/-- `chunker.chunk_text` (metadata form; the plain form is the `text`
projection).  Parameters are `Int` so that the three `ValueError` guards
of the source are represented faithfully. -/
def chunkText (fuel : Nat) (text : List Char) (chunkSize overlap : Int)
    (measure : List Char → Nat) (minTok : Nat) : ChunkResult :=
  if chunkSize ≤ 0 then .invalidArg
  else if overlap < 0 then .invalidArg
  else if chunkSize ≤ overlap then .invalidArg
  else
    let segments := segmentText text
    if segments.isEmpty then .ok []
    else
      match chunkLoop measure chunkSize.toNat overlap.toNat minTok text fuel segments [] 0 [] with
      | none => .timeout
      | some chunks => .ok chunks

/-- A metadata record as stored in `metadata.json`: a JSON object whose
`"text"` and `"source"` keys may be absent (the pipeline reads them with
`dict.get` defaults). -/
structure MetaRecord where
  text : Option (List Char)
  source : Option (List Char)
deriving DecidableEq, Repr

/-- In-memory state of `vectorstore.VectorStore`: the declared dimension,
the vectors held by the faiss `IndexFlatL2` (so `ntotal = vectors.length`),
and the parallel metadata list. -/
structure VectorStore where
  dim : Nat
  vectors : List (List ℚ)
  metadata : List MetaRecord
deriving DecidableEq

/-- Error cases of `VectorStore.add`: `raggedArray` is the `ValueError`
raised by `np.array` on a ragged nested list, `indexError` the
`IndexError` from reading `shape[1]` of the 1-D array `np.array([])`,
`dimensionMismatch` the explicit `ValueError` of the source. -/
inductive AddError
  | raggedArray
  | indexError
  | dimensionMismatch
deriving DecidableEq, Repr

/-- `np.array(vectors).shape[1]` for a nested-list batch: an empty batch
converts to a 1-D array, so reading the second axis raises; a ragged batch
fails conversion; otherwise the row width is returned. -/
def npShape1 : List (List ℚ) → Except AddError Nat
  | [] => .error .indexError
  | r :: rs => if rs.all (fun x => x.length == r.length) then .ok r.length else .error .raggedArray

/-- `VectorStore.add`: checks only the row dimensionality against `dim`
(never the batch lengths), then appends vectors and metadata.  Errors are
re-raised, leaving the store unchanged; on success the new store is
returned (the subsequent `save()` persists it and is not modelled). -/
def VectorStore.add (s : VectorStore) (vectors : List (List ℚ))
    (metadatas : List MetaRecord) : Except AddError VectorStore :=
  match npShape1 vectors with
  | .error e => .error e
  | .ok d =>
    if d ≠ s.dim then .error .dimensionMismatch
    else .ok ⟨s.dim, s.vectors ++ vectors, s.metadata ++ metadatas⟩

/-- State of `metadata.json` on disk as seen by `VectorStore.__init__`:
absent, present but unparsable, or a parsed record list. -/
inductive MetaFileState
  | absent
  | corrupt
  | valid (records : List MetaRecord)
deriving DecidableEq

/-- The two persisted artifacts read by `VectorStore.__init__`:
`index.faiss` (`none` when the file does not exist) and `metadata.json`. -/
structure DiskState where
  indexFile : Option (List (List ℚ))
  metaFile : MetaFileState
deriving DecidableEq

/-- `VectorStore.__init__(dim)`: starts from an empty index and metadata
list; if the index file exists it is loaded, and the metadata file is
then parsed when present (a parse failure propagates out of the
constructor), while a missing metadata file only logs a warning and
leaves the metadata list empty. -/
def VectorStore.init (dim : Nat) (disk : DiskState) : Except Unit VectorStore :=
  match disk.indexFile with
  | none => .ok ⟨dim, [], []⟩
  | some vs =>
    match disk.metaFile with
    | .absent => .ok ⟨dim, vs, []⟩
    | .corrupt => .error ()
    | .valid ms => .ok ⟨dim, vs, ms⟩

/-- Squared Euclidean distance, the metric of `faiss.IndexFlatL2` (queries
and stored vectors share the index dimension). -/
def sqDist (q v : List ℚ) : ℚ :=
  ((q.zip v).map (fun p => (p.1 - p.2) * (p.1 - p.2))).sum

/-- `(distance, index)` pairs of the query against every stored vector, in
storage order. -/
def distPairs (q : List ℚ) : List (List ℚ) → Nat → List (ℚ × Int)
  | [], _ => []
  | v :: vs, n => (sqDist q v, (n : Int)) :: distPairs q vs (n + 1)

/-- Comparison of candidate pairs by distance. -/
def distLe (a b : ℚ × Int) : Prop :=
  a.1 ≤ b.1

instance : DecidableRel distLe :=
  fun a b => inferInstanceAs (Decidable (a.1 ≤ b.1))

instance : IsTotal (ℚ × Int) distLe :=
  ⟨fun a b => le_total a.1 b.1⟩

instance : IsTrans (ℚ × Int) distLe :=
  ⟨fun _ _ _ h h2 => le_trans h h2⟩

/-- Model of the faiss call `IndexFlatL2.search(v, k)` (third-party
dependency, modelled from its documented behaviour): the `k` nearest
stored vectors by squared Euclidean distance in ascending order, padded
with index `-1` entries when fewer than `k` vectors are stored. -/
def faissSearch (stored : List (List ℚ)) (q : List ℚ) (k : Nat) : List (ℚ × Int) :=
  let top := (List.insertionSort distLe (distPairs q stored 0)).take k
  top ++ List.replicate (k - top.length) ((0 : ℚ), (-1 : Int))

/-- The validity filter of `VectorStore.search`: keep a returned pair only
when its index is non-negative and within the metadata list. -/
def searchPairs (s : VectorStore) (q : List ℚ) (k : Nat) : List (ℚ × Int) :=
  (faissSearch s.vectors q k).filter
    (fun p => decide (0 ≤ p.2) && decide (p.2 < (s.metadata.length : Int)))

/-- `VectorStore.search`: the parallel `(valid_distances, valid_indices)`
lists returned by the source. -/
def VectorStore.search (s : VectorStore) (q : List ℚ) (k : Nat) : List ℚ × List Nat :=
  ((searchPairs s q k).map Prod.fst, (searchPairs s q k).map (fun p => p.2.toNat))

/-- Outcome of the guarded model call in `llm.generate_answer`: either the
`transformers` pipeline (or its lazy construction) raises, or it returns a
result list whose entries carry a `generated_text` string.  A non-list or
empty result is `result []`. -/
inductive LlmOutcome
  | failure
  | result (gens : List (List Char))
deriving DecidableEq

/-- Lowercasing, Python `str.lower` restricted to the characters at hand. -/
def toLowerList (s : List Char) : List Char :=
  s.map Char.toLower

/-- Number of distinct question keywords occurring as substrings of the
lowercased sentence (`sum(1 for kw in question_keywords if kw in ...)`
over the keyword set). -/
def countMatches (kws : List (List Char)) (sLower : List Char) : Nat :=
  ((kws.dedup).filter (fun kw => containsSub sLower kw)).length

/-- Python `max(iter, key=len, default=d)`: the first element of maximal
length, or `d` when the list is empty. -/
def maxByLen (d : List Char) : List (List Char) → List Char
  | [] => d
  | x :: xs => xs.foldl (fun best s => if s.length > best.length then s else best) x

/-- The final fallback of `generate_answer`: longest raw sentence longer
than 20 characters not starting with a bracket. -/
def fallbackAnswer (sentences : List (List Char)) : List Char :=
  let noRel := "No relevant information found".toList
  let best := maxByLen noRel
    (sentences.filter (fun s => decide (s.length > 20) && !startsWith s ['[']))
  if best == noRel then "Unable to find relevant information".toList else best

/-- `llm.generate_answer`: extract keyword-matching sentences from the
context; otherwise consult the model; otherwise fall back to the longest
context sentence.  Every failure path degrades instead of raising (the
whole body is wrapped in `try/except` returning a fixed string). -/
def generateAnswer (context question : List Char) (llm : LlmOutcome) : List Char :=
  let sentences := splitOnSep ['\n'] [] (replaceAll "[Source".toList "\n[Source".toList context)
  let questionKeywords := splitWhitespace (toLowerList question)
  let relevantSentences := sentences.filterMap (fun s0 =>
    let s := stripChars s0
    if s.isEmpty || startsWith s "[Source".toList then none
    else if countMatches questionKeywords (toLowerList s) ≥ 2 && decide (s.length > 20) then some s
    else none)
  if !relevantSentences.isEmpty then
    let answer := joinWithSpace (relevantSentences.take 2)
    if endsWithDot answer then answer else answer ++ ['.']
  else
    let llmAnswer : Option (List Char) :=
      match llm with
      | .failure => none
      | .result gens =>
        let generated := gens.headD []
        let answer0 := stripChars ((splitOnSep "A:".toList [] generated).getLastD [])
        let answer := stripChars (replaceAll "<|endoftext|>".toList [] answer0)
        if !answer.isEmpty && decide (answer.length > 5) then
          some ((splitOnSep ['.'] [] answer).headD [] ++ ['.'])
        else none
    match llmAnswer with
    | some a => a
    | none =>
      if !sentences.isEmpty then fallbackAnswer sentences
      else "Unable to find relevant information in the provided context".toList

/-- `config.K_RESULTS`. -/
def K_RESULTS : Nat := 5

/-- Mirror of `response_models.SourceChunk` (the pydantic model; the
`timestamp`-free part relevant to the claims). -/
structure SourceChunk where
  document : List Char
  chunk : List Char
  score : ℚ
  chunkIndex : Nat
deriving DecidableEq

/-- Mirror of `response_models.QueryResponse` without the wall-clock
`timestamp` field. -/
structure QueryResponse where
  query : List Char
  answer : List Char
  sources : List SourceChunk
  confidence : ℚ
  numChunksRetrieved : Nat
  isHallucinationRisk : Bool
deriving DecidableEq

/-- The retrieval loop of `rag_pipeline.query_rag_with_sources`: one
`SourceChunk` per `(distance, index)` pair, scored with
`max(0, 1 - distance/2)`, carrying the metadata `text`/`source` with
`dict.get` defaults and the 0-based retrieval rank. -/
def buildSources (s : VectorStore) : List (ℚ × Nat) → Nat → List SourceChunk
  | [], _ => []
  | (d, idx) :: rest, i =>
    let m := s.metadata.getD idx ⟨none, none⟩
    ⟨m.source.getD "unknown".toList, m.text.getD [], max 0 (1 - d / 2), i⟩ ::
      buildSources s rest (i + 1)

/-- Python `sep.join`. -/
def joinWith (sep : List Char) : List (List Char) → List Char
  | [] => []
  | [x] => x
  | x :: xs => x ++ sep ++ joinWith sep xs

/-- The `f"[Source {i}] {text}"` labels, counting from 1. -/
def labelTexts : List (List Char) → Nat → List (List Char)
  | [], _ => []
  | t :: ts, i => ("[Source ".toList ++ (Nat.repr i).toList ++ "] ".toList ++ t) :: labelTexts ts (i + 1)

/-- The grounding context: labelled chunk texts joined by blank lines. -/
def buildContext (texts : List (List Char)) : List Char :=
  joinWith ['\n', '\n'] (labelTexts texts 1)

/-- `rag_pipeline.query_rag_with_sources`.  The externally produced query
embedding, the constructed store and the generator outcome are
parameters; everything else follows the source line by line.  An empty
index short-circuits before any search; an empty (post-filter) search
result short-circuits before building sources. -/
def queryRagWithSources (question : List Char) (queryVec : List ℚ)
    (store : VectorStore) (llm : LlmOutcome) : QueryResponse :=
  if store.vectors.length == 0 then
    ⟨question, "No documents indexed. Please ingest documents first.".toList, [], 0, 0, true⟩
  else
    let distances := (store.search queryVec K_RESULTS).1
    let indices := (store.search queryVec K_RESULTS).2
    if indices.length == 0 then
      ⟨question, "No relevant information found.".toList, [], 0, 0, true⟩
    else
      let sources := buildSources store (distances.zip indices) 0
      let retrievedTexts := sources.map (·.chunk)
      let answer := generateAnswer (buildContext retrievedTexts) question llm
      let avgConfidence : ℚ :=
        if sources.isEmpty then 0 else ((sources.map (·.score)).sum) / (sources.length : ℚ)
      ⟨question, answer, sources, avgConfidence, retrievedTexts.length,
        decide (avgConfidence < 1 / 2)⟩

/-! ## Theorems about the vector store -/

/-- C10: `VectorStore.add` with an empty batch raises (the converted
array is 1-D, so the dimensionality check reads a missing axis) instead of
succeeding as a no-op; no new store state is produced. -/
theorem add_empty_batch_raises (s : VectorStore) (ms : List MetaRecord) :
    s.add [] ms = Except.error AddError.indexError :=
  rfl

/-- C1 (amended): `add` validates only the per-row dimensionality, never
the two batch lengths; a successful add appends vectors and metadata in
lock-step, so the count invariant holds afterwards exactly when the prior
counts plus the batch lengths agree. -/
theorem add_appends_lockstep (s : VectorStore) (vs : List (List ℚ)) (ms : List MetaRecord)
    (s' : VectorStore) (h : s.add vs ms = Except.ok s') :
    s'.vectors = s.vectors ++ vs ∧ s'.metadata = s.metadata ++ ms ∧
      (s'.vectors.length = s'.metadata.length ↔
        s.vectors.length + vs.length = s.metadata.length + ms.length) := by
  unfold VectorStore.add at h
  split at h
  · exact absurd h (by simp)
  · split at h
    · exact absurd h (by simp)
    · injection h with h
      subst h
      refine ⟨rfl, rfl, ?_⟩
      simp only [List.length_append]

theorem add_appends_lockstep_witness :
    (⟨1, [[0]], [⟨none, none⟩, ⟨none, none⟩]⟩ : VectorStore).vectors =
      (⟨1, [], []⟩ : VectorStore).vectors ++ [[0]] ∧
    (⟨1, [[0]], [⟨none, none⟩, ⟨none, none⟩]⟩ : VectorStore).metadata =
      (⟨1, [], []⟩ : VectorStore).metadata ++ [⟨none, none⟩, ⟨none, none⟩] ∧
    ((⟨1, [[0]], [⟨none, none⟩, ⟨none, none⟩]⟩ : VectorStore).vectors.length =
        (⟨1, [[0]], [⟨none, none⟩, ⟨none, none⟩]⟩ : VectorStore).metadata.length ↔
      (⟨1, [], []⟩ : VectorStore).vectors.length + ([[0]] : List (List ℚ)).length =
        (⟨1, [], []⟩ : VectorStore).metadata.length +
          ([⟨none, none⟩, ⟨none, none⟩] : List MetaRecord).length) :=
  add_appends_lockstep ⟨1, [], []⟩ [[0]] [⟨none, none⟩, ⟨none, none⟩]
    ⟨1, [[0]], [⟨none, none⟩, ⟨none, none⟩]⟩ rfl

/-- C1 counterexample: an `add` whose metadata batch is longer than its
vector batch succeeds, and afterwards the vector count and metadata count
disagree — the claimed length precondition and invariant do not hold. -/
theorem add_unchecked_lengths_cex :
    ∃ s' : VectorStore,
      VectorStore.add ⟨1, [], []⟩ [[0]] [⟨none, none⟩, ⟨none, none⟩] = Except.ok s' ∧
        s'.vectors.length ≠ s'.metadata.length :=
  ⟨⟨1, [[0]], [⟨none, none⟩, ⟨none, none⟩]⟩, rfl, by decide⟩

/-- C3 (amended): constructing the store over an existing index file fails
loudly when `metadata.json` exists but cannot be parsed, but a merely
missing `metadata.json` only logs a warning: construction succeeds with
the loaded vectors and an empty metadata list. -/
theorem init_metadata_handling (dim : Nat) (vs : List (List ℚ)) :
    VectorStore.init dim ⟨some vs, MetaFileState.corrupt⟩ = Except.error () ∧
      VectorStore.init dim ⟨some vs, MetaFileState.absent⟩ = Except.ok ⟨dim, vs, []⟩ :=
  ⟨rfl, rfl⟩

/-- C3 counterexample: with an index file holding two vectors and no
metadata file, construction succeeds and the resulting store has two
vectors against zero metadata records — no integrity error is raised. -/
theorem init_missing_metadata_cex :
    ∃ s : VectorStore,
      VectorStore.init 1 ⟨some [[0], [0]], MetaFileState.absent⟩ = Except.ok s ∧
        s.vectors.length ≠ s.metadata.length :=
  ⟨⟨1, [[0], [0]], []⟩, rfl, by decide⟩

/-! ## Theorems about the retrieval engine short-circuits -/

/-- C4: on an empty index, `query_rag_with_sources` returns (it never
raises here) the fixed "no documents indexed" response — empty sources,
zero confidence, hallucination risk set, zero chunks — before any search
is attempted (the guard precedes the `search` call in the source). -/
theorem query_empty_index_short_circuits (q : List Char) (v : List ℚ) (s : VectorStore)
    (llm : LlmOutcome) (h : s.vectors = []) :
    queryRagWithSources q v s llm =
      ⟨q, "No documents indexed. Please ingest documents first.".toList, [], 0, 0, true⟩ := by
  unfold queryRagWithSources
  rw [h]
  rfl

theorem query_empty_index_short_circuits_witness :
    queryRagWithSources "q".toList [0] ⟨1, [], []⟩ LlmOutcome.failure =
      ⟨"q".toList, "No documents indexed. Please ingest documents first.".toList, [], 0, 0, true⟩ :=
  query_empty_index_short_circuits "q".toList [0] ⟨1, [], []⟩ LlmOutcome.failure rfl

/-! ## Theorems about the answer generator -/

lemma foldl_maxByLen_ne_nil (ys : List (List Char)) :
    ∀ best : List Char, best ≠ [] → (∀ s ∈ ys, s ≠ []) →
      ys.foldl (fun best s => if s.length > best.length then s else best) best ≠ [] := by
  induction ys with
  | nil => intro best hb _; exact hb
  | cons y ys ih =>
    intro best hb hys
    simp only [List.foldl_cons]
    apply ih
    · split
      · exact hys y (by simp)
      · exact hb
    · intro s hs
      exact hys s (by simp [hs])

lemma maxByLen_ne_nil (d : List Char) (l : List (List Char))
    (hd : d ≠ []) (hl : ∀ s ∈ l, s ≠ []) : maxByLen d l ≠ [] := by
  cases l with
  | nil => exact hd
  | cons x xs =>
    exact foldl_maxByLen_ne_nil xs x (hl x (by simp)) (fun s hs => hl s (by simp [hs]))

lemma fallbackAnswer_ne_nil (sentences : List (List Char)) :
    fallbackAnswer sentences ≠ [] := by
  simp only [fallbackAnswer]
  split
  · decide
  · apply maxByLen_ne_nil
    · decide
    · intro s hs
      have := (List.mem_filter.mp hs).2
      simp only [Bool.and_eq_true, decide_eq_true_eq] at this
      exact List.ne_nil_of_length_pos (by omega)

/-- C9: `generate_answer` is total and always yields a non-empty string:
every path — keyword extraction, a model answer, and the context-derived
or constant fallbacks reached when the model call fails or its output is
unusable — ends in a non-empty string rather than a raised exception. -/
theorem generateAnswer_nonempty (context question : List Char) (llm : LlmOutcome) :
    generateAnswer context question llm ≠ [] := by
  cases llm with
  | failure =>
    simp only [generateAnswer]
    split
    · split
      · next hdot =>
        intro hnil
        rw [hnil] at hdot
        simp [endsWithDot] at hdot
      · simp
    · split
      · exact fallbackAnswer_ne_nil _
      · decide
  | result gens =>
    simp only [generateAnswer]
    split
    · split
      · next hdot =>
        intro hnil
        rw [hnil] at hdot
        simp [endsWithDot] at hdot
      · simp
    · split
      · next a heq =>
        split at heq
        · injection heq with heq
          subst heq
          simp
        · exact absurd heq (by simp)
      · split
        · exact fallbackAnswer_ne_nil _
        · decide

/-! ## Theorems about search -/

lemma searchPairs_eq_filter_top (s : VectorStore) (q : List ℚ) (k : Nat) :
    searchPairs s q k = ((List.insertionSort distLe (distPairs q s.vectors 0)).take k).filter
      (fun p => decide (0 ≤ p.2) && decide (p.2 < (s.metadata.length : Int))) := by
  unfold searchPairs faissSearch
  simp only [List.filter_append]
  have hpad : List.filter (fun p => decide (0 ≤ p.2) && decide (p.2 < (s.metadata.length : Int)))
      (List.replicate (k - ((List.insertionSort distLe (distPairs q s.vectors 0)).take k).length)
        ((0 : ℚ), (-1 : Int))) = [] := by
    rw [List.filter_eq_nil]
    intro a ha
    rw [List.eq_of_mem_replicate ha]
    simp only [Bool.and_eq_true, decide_eq_true_eq, not_and]
    intro hcontra
    exact absurd hcontra (by decide)
  rw [hpad, List.append_nil]

lemma searchPairs_pairwise (s : VectorStore) (q : List ℚ) (k : Nat) :
    List.Pairwise (fun a b : ℚ × Int => a.1 ≤ b.1) (searchPairs s q k) := by
  rw [searchPairs_eq_filter_top]
  apply List.Pairwise.filter
  apply List.Pairwise.sublist (List.take_sublist _ _)
  exact List.sorted_insertionSort distLe (distPairs q s.vectors 0)

lemma searchPairs_length_le (s : VectorStore) (q : List ℚ) (k : Nat) :
    (searchPairs s q k).length ≤ k := by
  rw [searchPairs_eq_filter_top]
  calc (List.filter _ _).length
      ≤ ((List.insertionSort distLe (distPairs q s.vectors 0)).take k).length :=
        List.length_filter_le _ _
    _ ≤ k := List.length_take_le _ _

lemma searchPairs_valid (s : VectorStore) (q : List ℚ) (k : Nat) :
    ∀ p ∈ searchPairs s q k, 0 ≤ p.2 ∧ p.2 < (s.metadata.length : Int) := by
  intro p hp
  have := (List.mem_filter.mp hp).2
  simp only [Bool.and_eq_true, decide_eq_true_eq] at this
  exact this

lemma mem_distPairs (q : List ℚ) :
    ∀ (vs : List (List ℚ)) (n : Nat) (p : ℚ × Int), p ∈ distPairs q vs n →
      ∃ j, j < vs.length ∧ p = (sqDist q (vs.getD j []), ((n + j : Nat) : Int)) := by
  intro vs
  induction vs with
  | nil => simp [distPairs]
  | cons v vs ih =>
    intro n p hp
    simp only [distPairs, List.mem_cons] at hp
    rcases hp with rfl | hp
    · exact ⟨0, by simp, by simp⟩
    · rcases ih (n + 1) p hp with ⟨j, hj, rfl⟩
      refine ⟨j + 1, by simpa using hj, ?_⟩
      simp only [List.getD_cons_succ]
      congr 2
      omega

lemma searchPairs_mem (s : VectorStore) (q : List ℚ) (k : Nat) (p : ℚ × Int)
    (hp : p ∈ searchPairs s q k) :
    ∃ j, j < s.vectors.length ∧ p = (sqDist q (s.vectors.getD j []), (j : Int)) := by
  rw [searchPairs_eq_filter_top] at hp
  have hp2 := List.mem_of_mem_filter hp
  have hp3 := List.mem_of_mem_take hp2
  rw [List.mem_insertionSort] at hp3
  rcases mem_distPairs q s.vectors 0 p hp3 with ⟨j, hj, rfl⟩
  exact ⟨j, hj, by simp⟩

/-- C8: `VectorStore.search` returns at most `k` parallel distance/index
entries, in ascending distance order, and every index it returns is a
valid position in the metadata list — out-of-range neighbour indices
(including the `-1` padding of an underfull index) are dropped silently,
so fewer than `k` results, including zero, are possible. -/
theorem search_results_valid (s : VectorStore) (q : List ℚ) (k : Nat) :
    (s.search q k).1.length ≤ k ∧
    (s.search q k).1.length = (s.search q k).2.length ∧
    List.Sorted (· ≤ ·) (s.search q k).1 ∧
    ∀ i ∈ (s.search q k).2, i < s.metadata.length := by
  refine ⟨?_, ?_, ?_, ?_⟩
  · simpa [VectorStore.search] using searchPairs_length_le s q k
  · simp [VectorStore.search]
  · unfold VectorStore.search
    rw [List.Sorted, List.pairwise_map]
    exact searchPairs_pairwise s q k
  · intro i hi
    unfold VectorStore.search at hi
    rcases List.mem_map.mp hi with ⟨p, hp, rfl⟩
    have := searchPairs_valid s q k p hp
    omega

lemma search_dist_eq (s : VectorStore) (q : List ℚ) (k : Nat) (j : Nat)
    (hd : j < (s.search q k).1.length) (hi : j < (s.search q k).2.length) :
    (s.search q k).1.get ⟨j, hd⟩ =
      sqDist q (s.vectors.getD ((s.search q k).2.get ⟨j, hi⟩) []) := by
  unfold VectorStore.search at hd hi ⊢
  simp only [List.get_eq_getElem, List.getElem_map]
  simp only [List.length_map] at hd hi
  rcases searchPairs_mem s q k ((searchPairs s q k)[j]) (List.getElem_mem hd)
    with ⟨j', hj', heq⟩
  rw [heq]
  have hnat : ((j' : Int)).toNat = j' := by omega
  rw [hnat]

lemma buildSources_score_map (s : VectorStore) :
    ∀ (l : List (ℚ × Nat)) (i : Nat),
      (buildSources s l i).map (·.score) = l.map (fun p => max 0 (1 - p.1 / 2)) := by
  intro l
  induction l with
  | nil => intro i; rfl
  | cons p rest ih =>
    intro i
    cases p with
    | mk d idx => simp [buildSources, ih]

lemma buildSources_length (s : VectorStore) :
    ∀ (l : List (ℚ × Nat)) (i : Nat), (buildSources s l i).length = l.length := by
  intro l
  induction l with
  | nil => intro i; rfl
  | cons p rest ih =>
    intro i
    cases p with
    | mk d idx => simp [buildSources, ih]

/-- C5: with at least one valid neighbour, each `SourceChunk` score is the
clamped similarity `max(0, 1 - distance/2)` of the corresponding search
distance (which is itself the squared Euclidean distance to the
neighbour's stored vector), the response confidence is the arithmetic
mean of the scores, and the hallucination flag is exactly
`confidence < 1/2`. -/
theorem query_scores_and_confidence (q : List Char) (v : List ℚ) (s : VectorStore)
    (llm : LlmOutcome) (h1 : s.vectors ≠ []) (h2 : (s.search v K_RESULTS).2 ≠ []) :
    (queryRagWithSources q v s llm).sources.map (·.score) =
      ((s.search v K_RESULTS).1).map (fun d => max 0 (1 - d / 2)) ∧
    (queryRagWithSources q v s llm).confidence =
      ((queryRagWithSources q v s llm).sources.map (·.score)).sum /
        (((queryRagWithSources q v s llm).sources.length : ℚ)) ∧
    ((queryRagWithSources q v s llm).isHallucinationRisk = true ↔
      (queryRagWithSources q v s llm).confidence < 1 / 2) ∧
    ∀ (j : Nat) (hd : j < (s.search v K_RESULTS).1.length)
      (hi : j < (s.search v K_RESULTS).2.length),
      (s.search v K_RESULTS).1.get ⟨j, hd⟩ =
        sqDist v (s.vectors.getD ((s.search v K_RESULTS).2.get ⟨j, hi⟩) []) := by
  have hlen : (s.search v K_RESULTS).1.length = (s.search v K_RESULTS).2.length := by
    simp [VectorStore.search]
  have hv : (s.vectors.length == 0) = false :=
    beq_eq_false_iff_ne.mpr (fun hh => h1 (List.length_eq_zero.mp hh))
  have hi0 : ((s.search v K_RESULTS).2.length == 0) = false :=
    beq_eq_false_iff_ne.mpr (fun hh => h2 (List.length_eq_zero.mp hh))
  have hsrc : (buildSources s
      (((s.search v K_RESULTS).1).zip ((s.search v K_RESULTS).2)) 0).isEmpty = false := by
    rw [List.isEmpty_eq_false]
    intro hnil
    have := buildSources_length s (((s.search v K_RESULTS).1).zip ((s.search v K_RESULTS).2)) 0
    rw [hnil] at this
    simp only [List.length_nil, List.length_zip] at this
    have hpos : 0 < (s.search v K_RESULTS).2.length :=
      List.length_pos.mpr h2
    omega
  simp only [queryRagWithSources, hv, hi0, Bool.false_eq_true, if_false]
  refine ⟨?_, ?_, ?_, ?_⟩
  · rw [buildSources_score_map]
    have : (((s.search v K_RESULTS).1).zip ((s.search v K_RESULTS).2)).map
        (fun p => max 0 (1 - p.1 / 2)) =
        ((((s.search v K_RESULTS).1).zip ((s.search v K_RESULTS).2)).map Prod.fst).map
          (fun d => max 0 (1 - d / 2)) := by
      rw [List.map_map]
      rfl
    rw [this, List.map_fst_zip _ _ hlen.le]
  · simp only [hsrc, Bool.false_eq_true, if_false]
  · simp only [hsrc, Bool.false_eq_true, if_false, decide_eq_true_eq]
  · intro j hd hi
    exact search_dist_eq s v K_RESULTS j hd hi

theorem query_scores_and_confidence_witness :
    (queryRagWithSources "q".toList [0]
        ⟨1, [[0]], [⟨some "t".toList, some "d".toList⟩]⟩ LlmOutcome.failure).sources.map
      (·.score) =
      (((⟨1, [[0]], [⟨some "t".toList, some "d".toList⟩]⟩ : VectorStore).search
          [0] K_RESULTS).1).map (fun d => max 0 (1 - d / 2)) :=
  (query_scores_and_confidence "q".toList [0]
    ⟨1, [[0]], [⟨some "t".toList, some "d".toList⟩]⟩ LlmOutcome.failure
    (by decide) (by decide)).1

/-! ## Theorems about overlap seeding -/

lemma overlapTake_decomp (ov : Nat) :
    ∀ (l : List ChunkMeta) (acc : Nat), ∃ post, l = overlapTake ov acc l ++ post := by
  intro l
  induction l with
  | nil => intro acc; exact ⟨[], rfl⟩
  | cons seg rest ih =>
    intro acc
    simp only [overlapTake]
    split
    · exact ⟨rest, rfl⟩
    · rcases ih (acc + seg.tokens) with ⟨post, hpost⟩
      exact ⟨post, by rw [List.cons_append, ← hpost]⟩

lemma overlapTake_reaches (ov : Nat) :
    ∀ (l : List ChunkMeta) (acc : Nat),
      ov ≤ acc + sumTokens (overlapTake ov acc l) ∨ overlapTake ov acc l = l := by
  intro l
  induction l with
  | nil => intro acc; exact Or.inr rfl
  | cons seg rest ih =>
    intro acc
    simp only [overlapTake]
    split
    · next hcross =>
      left
      simp only [sumTokens, List.map_cons, List.sum_cons, List.map_nil, List.sum_nil]
      omega
    · rcases ih (acc + seg.tokens) with hle | heq
      · left
        simp only [sumTokens, List.map_cons, List.sum_cons] at hle ⊢
        omega
      · right
        rw [heq]

lemma overlapTake_minimal (ov : Nat) :
    ∀ (l : List ChunkMeta) (acc : Nat), acc < ov →
      ∀ (ys : List ChunkMeta) (y : ChunkMeta),
        overlapTake ov acc l = ys ++ [y] → acc + sumTokens ys < ov := by
  intro l
  induction l with
  | nil =>
    intro acc _ ys y h
    exact absurd h (by simp [overlapTake])
  | cons seg rest ih =>
    intro acc hacc ys y h
    simp only [overlapTake] at h
    split at h
    · have hys : ys = [] := by
        cases ys with
        | nil => rfl
        | cons z zs =>
          simp only [List.cons_append] at h
          injection h with _ h2
          exact absurd h2 (by simp)
      rw [hys]
      simp only [sumTokens, List.map_nil, List.sum_nil]
      omega
    · next hlt =>
      cases ys with
      | nil =>
        simp only [sumTokens, List.map_nil, List.sum_nil]
        omega
      | cons z zs =>
        simp only [List.cons_append] at h
        injection h with h1 h2
        have := ih (acc + seg.tokens) (by omega) zs y h2
        subst h1
        simp only [sumTokens, List.map_cons, List.sum_cons] at this ⊢
        omega

lemma sumTokens_reverse (l : List ChunkMeta) : sumTokens l.reverse = sumTokens l := by
  simp [sumTokens, List.map_reverse, List.sum_reverse]

/-- C6 (amended): with `overlap > 0` the next chunk is seeded with a
suffix of the closed chunk's sentences in original document order, namely
the shortest suffix whose token total is at least `overlap` (the whole
list when even the full total stays below `overlap`); the total may
therefore exceed `overlap`, by less than the last retained sentence. -/
theorem prepareOverlap_seeding (segs : List ChunkMeta) (ov : Nat)
    (hov : ov ≠ 0) (hne : segs ≠ []) :
    (∃ pre, segs = pre ++ (prepareOverlap segs ov).1) ∧
    (prepareOverlap segs ov).2 = sumTokens (prepareOverlap segs ov).1 ∧
    (ov ≤ (prepareOverlap segs ov).2 ∨ (prepareOverlap segs ov).1 = segs) ∧
    (∀ x rest, (prepareOverlap segs ov).1 = x :: rest → sumTokens rest < ov) := by
  have hcond : (ov == 0 || segs.isEmpty) = false := by
    simp only [Bool.or_eq_false_iff, beq_eq_false_iff_ne, List.isEmpty_eq_false]
    exact ⟨hov, hne⟩
  have hPO : prepareOverlap segs ov =
      ((overlapTake ov 0 segs.reverse).reverse,
        sumTokens (overlapTake ov 0 segs.reverse).reverse) := by
    simp only [prepareOverlap, hcond, Bool.false_eq_true, if_false]
  rw [hPO]
  refine ⟨?_, rfl, ?_, ?_⟩
  · rcases overlapTake_decomp ov segs.reverse 0 with ⟨post, hpost⟩
    refine ⟨post.reverse, ?_⟩
    have := congrArg List.reverse hpost
    rw [List.reverse_reverse, List.reverse_append] at this
    exact this
  · rw [sumTokens_reverse]
    rcases overlapTake_reaches ov segs.reverse 0 with hle | heq
    · left
      omega
    · right
      rw [heq, List.reverse_reverse]
  · intro x rest hret
    have htaken : overlapTake ov 0 segs.reverse = rest.reverse ++ [x] := by
      have := congrArg List.reverse hret
      rw [List.reverse_reverse] at this
      rw [this]
      simp
    have := overlapTake_minimal ov segs.reverse 0 (Nat.pos_of_ne_zero hov) rest.reverse x htaken
    rw [sumTokens_reverse] at this
    omega

theorem prepareOverlap_seeding_witness :
    (∃ pre, [(⟨"Aa.".toList, 0, 3, 3⟩ : ChunkMeta), ⟨"Bb.".toList, 4, 7, 3⟩] =
      pre ++ (prepareOverlap [⟨"Aa.".toList, 0, 3, 3⟩, ⟨"Bb.".toList, 4, 7, 3⟩] 5).1) ∧
    (prepareOverlap [(⟨"Aa.".toList, 0, 3, 3⟩ : ChunkMeta), ⟨"Bb.".toList, 4, 7, 3⟩] 5).2 =
      sumTokens (prepareOverlap [(⟨"Aa.".toList, 0, 3, 3⟩ : ChunkMeta), ⟨"Bb.".toList, 4, 7, 3⟩] 5).1 ∧
    (5 ≤ (prepareOverlap [(⟨"Aa.".toList, 0, 3, 3⟩ : ChunkMeta), ⟨"Bb.".toList, 4, 7, 3⟩] 5).2 ∨
      (prepareOverlap [(⟨"Aa.".toList, 0, 3, 3⟩ : ChunkMeta), ⟨"Bb.".toList, 4, 7, 3⟩] 5).1 =
        [⟨"Aa.".toList, 0, 3, 3⟩, ⟨"Bb.".toList, 4, 7, 3⟩]) ∧
    (∀ x rest,
      (prepareOverlap [(⟨"Aa.".toList, 0, 3, 3⟩ : ChunkMeta), ⟨"Bb.".toList, 4, 7, 3⟩] 5).1 =
        x :: rest → sumTokens rest < 5) :=
  prepareOverlap_seeding [⟨"Aa.".toList, 0, 3, 3⟩, ⟨"Bb.".toList, 4, 7, 3⟩] 5
    (by decide) (by decide)

/-- C6 counterexample: closing a chunk holding a single 7-token sentence
with `overlap = 5` seeds the next chunk with 7 tokens — the retained
total strictly exceeds `overlap`, contradicting the "reaches but does not
exceed" reading. -/
theorem prepareOverlap_exceeds_cex :
    prepareOverlap [⟨"Abcdef.".toList, 0, 7, 7⟩] 5 =
      ([⟨"Abcdef.".toList, 0, 7, 7⟩], 7) ∧ 5 < 7 :=
  ⟨rfl, by decide⟩

/-! ## Theorems about chunk sizes -/

lemma finalizeChunk_tokens (segments : List ChunkMeta) (t : List Char) (tot : Nat) :
    (finalizeChunk segments t tot).tokens = tot :=
  rfl

lemma overlapTake_subset (ov : Nat) :
    ∀ (l : List ChunkMeta) (acc : Nat), ∀ c ∈ overlapTake ov acc l, c ∈ l := by
  intro l
  induction l with
  | nil => intro acc c hc; exact absurd hc (by simp [overlapTake])
  | cons seg rest ih =>
    intro acc c hc
    simp only [overlapTake] at hc
    split at hc
    · simp only [List.mem_singleton] at hc
      simp [hc]
    · rcases List.mem_cons.mp hc with rfl | hc
      · simp
      · exact List.mem_cons_of_mem _ (ih (acc + seg.tokens) c hc)

lemma prepareOverlap_subset (segs : List ChunkMeta) (ov : Nat) :
    ∀ c ∈ (prepareOverlap segs ov).1, c ∈ segs := by
  intro c hc
  unfold prepareOverlap at hc
  split at hc
  · exact absurd hc (by simp)
  · simp only at hc
    rw [List.mem_reverse] at hc
    have := overlapTake_subset ov segs.reverse 0 c hc
    exact List.mem_reverse.mp this

lemma prepareOverlap_zero (segs : List ChunkMeta) : prepareOverlap segs 0 = ([], 0) := by
  simp [prepareOverlap]

lemma overlapTake_sum_lt (ov cs : Nat) :
    ∀ (l : List ChunkMeta) (acc : Nat), acc < ov → (∀ c ∈ l, c.tokens ≤ cs) →
      acc + sumTokens (overlapTake ov acc l) < ov + cs := by
  intro l
  induction l with
  | nil =>
    intro acc h _
    simp only [overlapTake, sumTokens, List.map_nil, List.sum_nil]
    omega
  | cons seg rest ih =>
    intro acc hacc hall
    simp only [overlapTake]
    split
    · simp only [sumTokens, List.map_cons, List.sum_cons, List.map_nil, List.sum_nil]
      have := hall seg (by simp)
      omega
    · next hlt =>
      have h2 := ih (acc + seg.tokens) (by omega) (fun c hc => hall c (by simp [hc]))
      simp only [sumTokens, List.map_cons, List.sum_cons] at h2 ⊢
      omega

lemma prepareOverlap_bound (cs : Nat) (hcs : 1 ≤ cs) (segs : List ChunkMeta) (ov : Nat)
    (hall : ∀ c ∈ segs, c.tokens ≤ cs) :
    (prepareOverlap segs ov).2 < ov + cs := by
  unfold prepareOverlap
  split
  · simp
    omega
  · next hcond =>
    simp only
    have hov : 0 < ov := by
      simp only [Bool.or_eq_true, beq_iff_eq, List.isEmpty_iff, not_or] at hcond
      omega
    have := overlapTake_sum_lt ov cs segs.reverse 0 hov
      (fun c hc => hall c (List.mem_reverse.mp hc))
    rw [sumTokens_reverse]
    omega

lemma chunkLoop_bound (measure : List Char → Nat) (cs ov minTok : Nat) (otext : List Char)
    (hcs : 1 ≤ cs) :
    ∀ (fuel : Nat) (pending : List Seg) (current : List ChunkMeta) (curTok : Nat)
      (chunks out : List ChunkMeta),
      chunkLoop measure cs ov minTok otext fuel pending current curTok chunks = some out →
      (∀ c ∈ current, c.tokens ≤ cs) →
      curTok < 2 * cs + ov →
      (ov = 0 → curTok ≤ cs) →
      (current = [] → curTok = 0) →
      (∀ c ∈ chunks, minTok ≤ c.tokens ∧ c.tokens < 2 * cs + ov ∧ (ov = 0 → c.tokens ≤ cs)) →
      ∀ c ∈ out, minTok ≤ c.tokens ∧ c.tokens < 2 * cs + ov ∧ (ov = 0 → c.tokens ≤ cs) := by
  intro fuel
  induction fuel with
  | zero =>
    intro pending current curTok chunks out h hall htok hz hemp hchunks
    cases pending with
    | nil =>
      simp only [chunkLoop] at h
      split at h
      · injection h with h
        subst h
        exact hchunks
      · injection h with h
        subst h
        intro c hc
        split at hc
        · rename_i hmin
          rcases List.mem_append.mp hc with hcl | hcr
          · exact hchunks c hcl
          · rw [List.mem_singleton] at hcr
            subst hcr
            rw [finalizeChunk_tokens] at hmin ⊢
            exact ⟨hmin, htok, hz⟩
        · exact hchunks c hc
    | cons seg rest =>
      simp only [chunkLoop] at h
      exact absurd h (by simp)
  | succ n ih =>
    intro pending current curTok chunks out h hall htok hz hemp hchunks
    cases pending with
    | nil =>
      simp only [chunkLoop] at h
      split at h
      · injection h with h
        subst h
        exact hchunks
      · injection h with h
        subst h
        intro c hc
        split at hc
        · rename_i hmin
          rcases List.mem_append.mp hc with hcl | hcr
          · exact hchunks c hcl
          · rw [List.mem_singleton] at hcr
            subst hcr
            rw [finalizeChunk_tokens] at hmin ⊢
            exact ⟨hmin, htok, hz⟩
        · exact hchunks c hc
    | cons seg rest =>
      rw [chunkLoop] at h
      split at h
      · exact ih rest current curTok chunks out h hall htok hz hemp hchunks
      · split at h
        · exact ih _ current curTok chunks out h hall htok hz hemp hchunks
        · split at h
          · rename_i hzero hbig hguard
            simp only [Bool.and_eq_true, decide_eq_true_eq, Bool.not_eq_eq_eq_not,
              Bool.not_true, List.isEmpty_eq_false] at hguard
            have hsegcs : measure seg.text ≤ cs := by omega
            have hall2 : ∀ c ∈ (prepareOverlap current ov).1 ++
                [(⟨seg.text, seg.start, seg.stop, measure seg.text⟩ : ChunkMeta)],
                c.tokens ≤ cs := by
              intro c hc
              rcases List.mem_append.mp hc with hcl | hcr
              · exact hall c (prepareOverlap_subset current ov c hcl)
              · rw [List.mem_singleton] at hcr
                subst hcr
                exact hsegcs
            have hpb := prepareOverlap_bound cs hcs current ov hall
            have htok2 : (prepareOverlap current ov).2 + measure seg.text < 2 * cs + ov := by
              omega
            have hz2 : ov = 0 → (prepareOverlap current ov).2 + measure seg.text ≤ cs := by
              intro hov0
              subst hov0
              rw [prepareOverlap_zero]
              simpa using hsegcs
            have hchunks2 : ∀ c ∈ (if minTok ≤ (finalizeChunk current otext curTok).tokens
                then chunks ++ [finalizeChunk current otext curTok] else chunks),
                minTok ≤ c.tokens ∧ c.tokens < 2 * cs + ov ∧ (ov = 0 → c.tokens ≤ cs) := by
              intro c hc
              split at hc
              · rename_i hmin
                rcases List.mem_append.mp hc with hcl | hcr
                · exact hchunks c hcl
                · rw [List.mem_singleton] at hcr
                  subst hcr
                  rw [finalizeChunk_tokens] at hmin ⊢
                  exact ⟨hmin, htok, hz⟩
              · exact hchunks c hc
            exact ih rest _ _ _ out h hall2 htok2 hz2 (by simp) hchunks2
          · rename_i hzero hbig hguard
            have hsegcs : measure seg.text ≤ cs := by omega
            have hnew : curTok + measure seg.text ≤ cs := by
              cases hie : current.isEmpty
              · rw [hie] at hguard
                simp only [Bool.not_false, Bool.and_true, decide_eq_true_eq] at hguard
                omega
              · have := hemp (List.isEmpty_iff.mp hie)
                omega
            have hall2 : ∀ c ∈ current ++
                [(⟨seg.text, seg.start, seg.stop, measure seg.text⟩ : ChunkMeta)],
                c.tokens ≤ cs := by
              intro c hc
              rcases List.mem_append.mp hc with hcl | hcr
              · exact hall c hcl
              · rw [List.mem_singleton] at hcr
                subst hcr
                exact hsegcs
            exact ih rest _ _ _ out h hall2 (by omega) (fun _ => hnew) (by simp) hchunks

/-- C2 (amended): every chunk that `chunk_text` returns — including the
last — has token total at least `minChunkSize`; when `overlap = 0` every
chunk's token total is at most `chunkSize`, but with `overlap > 0` a
chunk seeded by overlap carry-over may exceed `chunkSize`, bounded only
by `2 * chunkSize + overlap` (strictly). -/
theorem chunk_token_bounds (fuel : Nat) (text : List Char) (chunkSize overlap : Int)
    (measure : List Char → Nat) (minTok : Nat) (chunks : List ChunkMeta)
    (h : chunkText fuel text chunkSize overlap measure minTok = ChunkResult.ok chunks) :
    ∀ c ∈ chunks, minTok ≤ c.tokens ∧ c.tokens < 2 * chunkSize.toNat + overlap.toNat ∧
      (overlap = 0 → c.tokens ≤ chunkSize.toNat) := by
  simp only [chunkText] at h
  split at h
  · exact absurd h (by simp)
  next hpos =>
    split at h
    · exact absurd h (by simp)
    next hneg =>
      split at h
      · exact absurd h (by simp)
      next hlt =>
        split at h
        · injection h with h
          subst h
          intro c hc
          exact absurd hc (by simp)
        next hne =>
          split at h
          · exact absurd h (by simp)
          next val heq =>
            injection h with h
            subst h
            have hcs1 : 1 ≤ chunkSize.toNat := by omega
            intro c hc
            have hres := chunkLoop_bound measure chunkSize.toNat overlap.toNat minTok text hcs1
              fuel (segmentText text) [] 0 [] val heq (by simp) (by omega) (by omega)
              (fun _ => rfl) (by simp) c hc
            exact ⟨hres.1, hres.2.1, fun hov => hres.2.2 (by omega)⟩

theorem chunk_token_bounds_witness :
    1 ≤ (⟨"Aa. Bb. Cc.".toList, 0, 11, 9⟩ : ChunkMeta).tokens ∧
    (⟨"Aa. Bb. Cc.".toList, 0, 11, 9⟩ : ChunkMeta).tokens <
      2 * (10 : Int).toNat + (0 : Int).toNat ∧
    ((0 : Int) = 0 → (⟨"Aa. Bb. Cc.".toList, 0, 11, 9⟩ : ChunkMeta).tokens ≤ (10 : Int).toNat) :=
  chunk_token_bounds 20 "Aa. Bb. Cc.".toList 10 0 defaultMeasure 1
    [⟨"Aa. Bb. Cc.".toList, 0, 11, 9⟩] (by decide)
    ⟨"Aa. Bb. Cc.".toList, 0, 11, 9⟩ (by simp)

/-- C2 counterexample: with `chunkSize = 10`, `overlap = 5` the middle
chunk produced for "Abcdef. Ghidef. Jklmno." carries 14 tokens and its
text measures 15 characters — the claimed `≤ chunkSize` bound fails
(the chunk was seeded with 7 tokens of carry-over and then grew). -/
theorem chunk_oversize_cex :
    ∃ cs c, chunkText 20 "Abcdef. Ghidef. Jklmno.".toList 10 5 defaultMeasure 1 =
        ChunkResult.ok cs ∧ c ∈ cs ∧ 10 < c.tokens ∧ 10 < defaultMeasure c.text :=
  ⟨[⟨"Abcdef.".toList, 0, 7, 7⟩, ⟨"Abcdef. Ghidef.".toList, 0, 15, 14⟩,
      ⟨"Ghidef. Jklmno.".toList, 8, 23, 14⟩],
    ⟨"Abcdef. Ghidef.".toList, 0, 15, 14⟩,
    by decide, by decide, by decide, by decide⟩

/-! ## Theorems about chunk ordering -/

lemma finalizeChunk_start (segments : List ChunkMeta) (t : List Char) (tot : Nat) :
    (finalizeChunk segments t tot).start = (segments.headD ⟨[], 0, 0, 0⟩).start :=
  rfl

lemma prepareOverlap_suffix (segs : List ChunkMeta) (ov : Nat) :
    ∃ pre, segs = pre ++ (prepareOverlap segs ov).1 := by
  unfold prepareOverlap
  split
  · exact ⟨segs, by simp⟩
  · simp only
    rcases overlapTake_decomp ov segs.reverse 0 with ⟨post, hpost⟩
    refine ⟨post.reverse, ?_⟩
    have := congrArg List.reverse hpost
    rw [List.reverse_reverse, List.reverse_append] at this
    exact this

lemma chunkLoop_mono (measure : List Char → Nat) (cs ov minTok : Nat) (otext : List Char) :
    ∀ (fuel : Nat) (pending : List Seg) (current : List ChunkMeta) (curTok : Nat)
      (chunks out : List ChunkMeta) (lastStart : Nat),
      chunkLoop measure cs ov minTok otext fuel pending current curTok chunks = some out →
      (∀ p ∈ pending, measure p.text ≤ cs) →
      List.Pairwise (fun a b : Seg => a.start ≤ b.start) pending →
      List.Pairwise (fun a b : ChunkMeta => a.start ≤ b.start) current →
      List.Pairwise (fun a b : ChunkMeta => a.start ≤ b.start) chunks →
      (∀ c ∈ current, lastStart ≤ c.start) →
      (∀ p ∈ pending, lastStart ≤ p.start) →
      (∀ c ∈ current, ∀ p ∈ pending, c.start ≤ p.start) →
      (∀ c ∈ chunks, c.start ≤ lastStart) →
      List.Pairwise (fun a b : ChunkMeta => a.start ≤ b.start) out := by
  intro fuel
  induction fuel with
  | zero =>
    intro pending current curTok chunks out lastStart h hpm hpwp hpwc hpwch hclast hplast hcp hchlast
    cases pending with
    | nil =>
      simp only [chunkLoop] at h
      split at h
      · injection h with h
        subst h
        exact hpwch
      · rename_i hcne
        injection h with h
        subst h
        split
        · rw [List.pairwise_append]
          refine ⟨hpwch, by simp, ?_⟩
          intro a ha b hb
          rw [List.mem_singleton] at hb
          subst hb
          cases hcm : current with
          | nil => rw [hcm] at hcne; exact absurd rfl hcne
          | cons c0 cur =>
            rw [finalizeChunk_start, List.headD_cons]
            have h1 := hchlast a ha
            have h2 := hclast c0 (by rw [hcm]; simp)
            omega
        · exact hpwch
    | cons seg rest =>
      simp only [chunkLoop] at h
      exact absurd h (by simp)
  | succ n ih =>
    intro pending current curTok chunks out lastStart h hpm hpwp hpwc hpwch hclast hplast hcp hchlast
    cases pending with
    | nil =>
      simp only [chunkLoop] at h
      split at h
      · injection h with h
        subst h
        exact hpwch
      · rename_i hcne
        injection h with h
        subst h
        split
        · rw [List.pairwise_append]
          refine ⟨hpwch, by simp, ?_⟩
          intro a ha b hb
          rw [List.mem_singleton] at hb
          subst hb
          cases hcm : current with
          | nil => rw [hcm] at hcne; exact absurd rfl hcne
          | cons c0 cur =>
            rw [finalizeChunk_start, List.headD_cons]
            have h1 := hchlast a ha
            have h2 := hclast c0 (by rw [hcm]; simp)
            omega
        · exact hpwch
    | cons seg rest =>
      rw [chunkLoop] at h
      split at h
      · exact ih rest current curTok chunks out lastStart h
          (fun p hp => hpm p (by simp [hp])) hpwp.of_cons hpwc hpwch hclast
          (fun p hp => hplast p (by simp [hp]))
          (fun c hc p hp => hcp c hc p (by simp [hp])) hchlast
      · split at h
        · rename_i hzero hbig
          exact absurd (hpm seg (by simp)) (by omega)
        · split at h
          · rename_i hzero hbig hguard
            simp only [Bool.and_eq_true, decide_eq_true_eq, Bool.not_eq_eq_eq_not,
              Bool.not_true, List.isEmpty_eq_false] at hguard
            obtain ⟨hgt, hcne⟩ := hguard
            cases hcurm : current with
            | nil => exact absurd hcurm hcne
            | cons c0 cur =>
              subst hcurm
              have hheadle : ∀ a ∈ c0 :: cur, c0.start ≤ a.start := by
                intro a ha
                rcases List.mem_cons.mp ha with rfl | ha
                · exact le_refl _
                · exact List.rel_of_pairwise_cons hpwc ha
              have hretsub := prepareOverlap_subset (c0 :: cur) ov
              have hretpw : List.Pairwise (fun a b : ChunkMeta => a.start ≤ b.start)
                  (prepareOverlap (c0 :: cur) ov).1 := by
                rcases prepareOverlap_suffix (c0 :: cur) ov with ⟨pre, hpre⟩
                rw [hpre] at hpwc
                exact (List.pairwise_append.mp hpwc).2.1
              have hchstart : (finalizeChunk (c0 :: cur) otext curTok).start = c0.start := by
                rw [finalizeChunk_start, List.headD_cons]
              refine ih rest _ _ _ out c0.start h
                (fun p hp => hpm p (by simp [hp])) hpwp.of_cons ?_ ?_ ?_ ?_ ?_ ?_
              · rw [List.pairwise_append]
                refine ⟨hretpw, by simp, ?_⟩
                intro a ha b hb
                rw [List.mem_singleton] at hb
                subst hb
                exact hcp a (hretsub a ha) seg (by simp)
              · split
                · rename_i hmin
                  rw [List.pairwise_append]
                  refine ⟨hpwch, by simp, ?_⟩
                  intro a ha b hb
                  rw [List.mem_singleton] at hb
                  subst hb
                  rw [hchstart]
                  have h1 := hchlast a ha
                  have h2 := hclast c0 (by simp)
                  omega
                · exact hpwch
              · intro c hc
                rcases List.mem_append.mp hc with hcl | hcr
                · exact hheadle c (hretsub c hcl)
                · rw [List.mem_singleton] at hcr
                  subst hcr
                  exact hcp c0 (by simp) seg (by simp)
              · intro p hp
                exact hcp c0 (by simp) p (by simp [hp])
              · intro c hc p hp
                rcases List.mem_append.mp hc with hcl | hcr
                · exact hcp c (hretsub c hcl) p (by simp [hp])
                · rw [List.mem_singleton] at hcr
                  subst hcr
                  exact List.rel_of_pairwise_cons hpwp hp
              · intro c hc
                split at hc
                · rcases List.mem_append.mp hc with hcl | hcr
                  · have h1 := hchlast c hcl
                    have h2 := hclast c0 (by simp)
                    omega
                  · rw [List.mem_singleton] at hcr
                    subst hcr
                    rw [hchstart]
                · have h1 := hchlast c hc
                  have h2 := hclast c0 (by simp)
                  omega
          · rename_i hzero hbig hguard
            refine ih rest _ _ _ out lastStart h
              (fun p hp => hpm p (by simp [hp])) hpwp.of_cons ?_ hpwch ?_
              (fun p hp => hplast p (by simp [hp])) ?_ hchlast
            · rw [List.pairwise_append]
              refine ⟨hpwc, by simp, ?_⟩
              intro a ha b hb
              rw [List.mem_singleton] at hb
              subst hb
              exact hcp a ha seg (by simp)
            · intro c hc
              rcases List.mem_append.mp hc with hcl | hcr
              · exact hclast c hcl
              · rw [List.mem_singleton] at hcr
                subst hcr
                exact hplast seg (by simp)
            · intro c hc p hp
              rcases List.mem_append.mp hc with hcl | hcr
              · exact hcp c hcl p (by simp [hp])
              · rw [List.mem_singleton] at hcr
                subst hcr
                exact List.rel_of_pairwise_cons hpwp hp

/-- C7 (amended): provided no sentence segment measures more than
`chunkSize` (so the oversized-segment requeueing never fires) and the
segmentation's start offsets are non-decreasing, the chunks returned by
`chunk_text` have non-decreasing start offsets.  (With an oversized
segment, its parts are appended to the end of the traversal queue and
chunked after all later text, so chunk starts can move backward and
consecutive spans can leave gaps; see the counterexample.) -/
theorem chunk_starts_monotone (fuel : Nat) (text : List Char) (chunkSize overlap : Int)
    (measure : List Char → Nat) (minTok : Nat) (chunks : List ChunkMeta)
    (h : chunkText fuel text chunkSize overlap measure minTok = ChunkResult.ok chunks)
    (hsmall : ∀ s ∈ segmentText text, measure s.text ≤ chunkSize.toNat)
    (hmono : List.Pairwise (fun a b : Seg => a.start ≤ b.start) (segmentText text)) :
    List.Pairwise (fun a b : ChunkMeta => a.start ≤ b.start) chunks := by
  simp only [chunkText] at h
  split at h
  · exact absurd h (by simp)
  · split at h
    · exact absurd h (by simp)
    · split at h
      · exact absurd h (by simp)
      · split at h
        · injection h with h
          subst h
          simp
        · split at h
          · exact absurd h (by simp)
          next val heq =>
            injection h with h
            subst h
            exact chunkLoop_mono measure chunkSize.toNat overlap.toNat minTok text
              fuel (segmentText text) [] 0 [] val 0 heq hsmall hmono (by simp) (by simp)
              (by simp) (by simp) (by simp) (by simp)

theorem chunk_starts_monotone_witness :
    List.Pairwise (fun a b : ChunkMeta => a.start ≤ b.start)
      [(⟨"Aaaa. Bbbb.".toList, 0, 11, 10⟩ : ChunkMeta), ⟨"Cccc.".toList, 12, 17, 5⟩] :=
  chunk_starts_monotone 20 "Aaaa. Bbbb. Cccc.".toList 10 0 defaultMeasure 1
    [⟨"Aaaa. Bbbb.".toList, 0, 11, 10⟩, ⟨"Cccc.".toList, 12, 17, 5⟩]
    (by decide) (by decide) (by decide)

/-- C7 counterexample: with an oversized first sentence
("Abcd efgh ijkl." measures 15 > chunkSize 9), `chunk_text` emits the
chunk covering offsets 16-23 before the chunk covering offsets 0-9: the
start offsets move backward, so the spans are neither non-decreasing nor
an adjacent cover. -/
theorem chunk_reorder_cex :
    ∃ a b tail, chunkText 20 "Abcd efgh ijkl. Bb. Cc.".toList 9 0 defaultMeasure 1 =
        ChunkResult.ok (a :: b :: tail) ∧ b.start < a.start :=
  ⟨⟨"Bb. Cc.".toList, 16, 23, 6⟩, ⟨"Abcd efgh".toList, 0, 9, 9⟩, [⟨"ijkl.".toList, 10, 15, 5⟩],
    by decide, by decide⟩

end RagProj
